import Mathlib

/-!
Verification development for the omni document ingestion and embedding
pipeline.  The Lean definitions below are shallow embeddings of the Python
source:

* `services/ai/embeddings/batch_processor.py` — the batch orchestrator
  (recordId format/parse, accumulation thresholds, Bedrock status polling,
  failure marking, embedding replacement).
* `services/ai/chunking.py` — the character-span chunker
  (`chunk_by_sentences_chars`, `chunk_by_chars`, the `Chunker` dispatch).
* `connectors/notion/notion_connector/connector.py` — the Notion
  connector's full-sync driver (cancellation polling, checkpointing,
  completion state).

Machine integers are modelled as `Nat`/`Int`; Python strings as `String`
or `List Char`; wall-clock times as naturals (ISO-8601 UTC timestamps
compare lexicographically consistently with chronology, so only their
order matters here); fallible paths return `Option`/`Except`.
-/

namespace Omni

/-! ### recordId format and parsing

`batch_processor.py` line 643 formats a batch record id with an f-string
`document_id:chunk_idx:start:end`; `_parse_and_group_embeddings`
(lines 799-804) recovers the fields with `record_id.split(':')`,
rejecting the line unless the split yields exactly 4 parts, and converts
the last three with `int(...)` (a failure is caught and the line skipped).
-/

/-- Decimal digit character for a single digit value, as produced by
Python `str` on a nonnegative int (values ≥ 9 are clamped; the callers
only pass values < 10). -/
def digitChar (d : Nat) : Char :=
  match d with
  | 0 => '0' | 1 => '1' | 2 => '2' | 3 => '3' | 4 => '4'
  | 5 => '5' | 6 => '6' | 7 => '7' | 8 => '8' | _ => '9'

/-- Little-endian decimal digits of `n`, with explicit fuel so that the
recursion is structural (`fuel ≥ n` makes the fuel case unreachable). -/
def natDigitsRev (fuel : Nat) (n : Nat) : List Nat :=
  match fuel with
  | 0 => []
  | fuel + 1 => if n = 0 then [] else n % 10 :: natDigitsRev fuel (n / 10)

/-- Decimal rendering of a nonnegative int, as Python `str`/f-string
interpolation produces it. -/
def natToChars (n : Nat) : List Char :=
  if n = 0 then ['0'] else ((natDigitsRev n n).reverse).map digitChar

/-- The f-string `"{document_id}:{chunk_idx}:{start}:{end}"` of
`_fetch_and_chunk_documents` (batch_processor.py line 643). -/
def formatRecordId (docId : List Char) (chunkIdx start stop : Nat) : List Char :=
  docId ++ ':' :: (natToChars chunkIdx ++ ':' :: (natToChars start ++ ':' :: natToChars stop))

/-- Python `str.split(':')`: splits on every colon; `"".split(':') = ['']`. -/
def splitOnColon : List Char → List (List Char)
  | [] => [[]]
  | c :: cs =>
    if c = ':' then [] :: splitOnColon cs
    else
      match splitOnColon cs with
      | [] => [[c]]
      | g :: gs => (c :: g) :: gs

/-- Character class of ASCII decimal digits. -/
def isDigitChar (c : Char) : Bool := '0' ≤ c && c ≤ '9'

/-- Model of Python `int(s)` restricted to plain digit strings (the only
shapes the record-id round trip can produce; leading sign or whitespace,
which CPython would also accept, never arise from the f-string format). -/
def parseIntChars (cs : List Char) : Option Nat :=
  if cs ≠ [] ∧ cs.all isDigitChar then
    some (cs.foldl (fun a c => a * 10 + (c.toNat - 48)) 0)
  else none

/-- `_parse_and_group_embeddings` (batch_processor.py lines 799-811):
split the record id on `':'`, require exactly 4 parts, convert the last
three to ints; any failure skips the record (modelled as `none`). -/
def parseRecordId (cs : List Char) : Option (List Char × Nat × Nat × Nat) :=
  match splitOnColon cs with
  | [d, a, b, c] =>
    match parseIntChars a, parseIntChars b, parseIntChars c with
    | some i, some s, some e => some (d, i, s, e)
    | _, _, _ => none
  | _ => none

/-! ### Chunker: character-based sentence and fixed chunking
(`services/ai/chunking.py`) -/

/-- The character class `[.!?]` of the sentence-boundary regex. -/
def isPunct (c : Char) : Bool := c = '.' || c = '!' || c = '?'

/-- The character class `[\s]` of the sentence-boundary regex, restricted
to the ASCII whitespace characters Python's `re` matches. -/
def isPySpace (c : Char) : Bool :=
  c = ' ' || c = '\t' || c = '\n' || c = '\r' || c = '\x0b' || c = '\x0c'

/-- `re.finditer(r"[.!?]+[\s]+", text)`: the non-overlapping left-to-right
matches, each a maximal run of `[.!?]` immediately followed by at least one
(and then a maximal run of) whitespace.  `pos` is the absolute offset of
the head of `cs` within the text; returns the `(match.start, match.end)`
pairs. -/
def findMatches (cs : List Char) (pos : Nat) : List (Nat × Nat) :=
  match cs with
  | [] => []
  | c :: cs' =>
    if isPunct c then
      let a := (c :: cs').takeWhile isPunct
      let rest := (c :: cs').dropWhile isPunct
      let b := rest.takeWhile isPySpace
      if b.length = 0 then
        findMatches rest (pos + a.length)
      else
        (pos, pos + a.length + b.length) ::
          findMatches (rest.dropWhile isPySpace) (pos + a.length + b.length)
    else
      findMatches cs' (pos + 1)
termination_by cs.length
decreasing_by
  · rename_i hc
    rw [List.dropWhile_cons_of_pos hc, List.length_cons]
    exact Nat.lt_succ_of_le ((List.dropWhile_sublist _).length_le)
  · rename_i hc _hb
    rw [List.length_cons]
    refine Nat.lt_succ_of_le (le_trans ((List.dropWhile_sublist _).length_le) ?_)
    rw [List.dropWhile_cons_of_pos hc]
    exact (List.dropWhile_sublist _).length_le
  · simp

/-- The first loop of `chunk_by_sentences_chars` (chunking.py lines 20-27):
turn the match list into sentence spans.  Returns the spans together with
the final value of `last_end`. -/
def buildSentences : List (Nat × Nat) → Nat → (List (Nat × Nat) × Nat)
  | [], lastEnd => ([], lastEnd)
  | (_, e) :: ms, lastEnd =>
    let r := buildSentences ms e
    if lastEnd < e then ((lastEnd, e) :: r.1, r.2) else r

/-- The sentence list of `chunk_by_sentences_chars` (chunking.py
lines 19-33): spans between consecutive regex matches, plus the tail after
the last match if nonempty. -/
def sentencesOf (text : List Char) : List (Nat × Nat) :=
  let r := buildSentences (findMatches text 0) 0
  if r.2 < text.length then r.1 ++ [(r.2, text.length)] else r.1

/-- The accumulation loop of `chunk_by_sentences_chars` (chunking.py
lines 39-46) over the sentence spans, threading `chunk_start` and
`last_sentence_end`; returns the emitted chunks together with the final
`chunk_start` and `last_sentence_end`.  `maxChars` is an `Int` because the
Python parameter is an arbitrary int. -/
def chunkLoop : List (Nat × Nat) → Int → Nat → Nat → (List (Nat × Nat) × Nat × Nat)
  | [], _, chunkStart, lastSentenceEnd => ([], chunkStart, lastSentenceEnd)
  | (_, e) :: rest, maxChars, chunkStart, lastSentenceEnd =>
    if (e : Int) - (chunkStart : Int) > maxChars ∧ chunkStart < lastSentenceEnd then
      let r := chunkLoop rest maxChars lastSentenceEnd e
      ((chunkStart, lastSentenceEnd) :: r.1, r.2)
    else
      chunkLoop rest maxChars chunkStart e

/-- `chunk_by_sentences_chars(text, max_chars)` (chunking.py lines 17-51). -/
def chunk_by_sentences_chars (text : List Char) (maxChars : Int) : List (Nat × Nat) :=
  let sents := sentencesOf text
  if sents = [] then [(0, text.length)]
  else
    let r := chunkLoop sents maxChars 0 0
    let chunks := if r.2.1 < text.length then r.1 ++ [(r.2.1, text.length)] else r.1
    if chunks = [] then [(0, text.length)] else chunks

/-- The loop `for i in range(0, len(text), max_chars)` of `chunk_by_chars`
(chunking.py lines 60-62); `hstep` records that the caller has already
ruled out `max_chars < 1`. -/
def buildCharChunks (len step : Nat) (hstep : 0 < step) (i : Nat) : List (Nat × Nat) :=
  if h : i < len then (i, min (i + step) len) :: buildCharChunks len step hstep (i + step)
  else []
termination_by len - i
decreasing_by omega

/-- `chunk_by_chars(text, max_chars)` (chunking.py lines 54-64). -/
def chunk_by_chars (text : List Char) (maxChars : Int) : List (Nat × Nat) :=
  if _h : text.length = 0 ∨ maxChars < 1 then []
  else
    let chunks := buildCharChunks text.length maxChars.toNat (by omega) 0
    if chunks = [] then [(0, text.length)] else chunks

/-! ### Chunker construction and dispatch (`services/ai/chunking.py`,
`Chunker.__init__` lines 68-76 and `Chunker.chunk` lines 251-273) -/

/-- A raised Python exception, by class and message. -/
inductive PyError
  | valueError (msg : String)
  | typeError (msg : String)
  deriving DecidableEq, Repr

/-- `CHUNKING_STRATEGIES` (chunking.py line 14). -/
def CHUNKING_STRATEGIES : List String := ["semantic", "fixed", "sentence"]

/-- `Chunker.__init__` (chunking.py lines 68-76): validates the strategy,
storing it on success. -/
def chunkerInit (chunkingStrategy : String) : Except PyError String :=
  if chunkingStrategy ∈ CHUNKING_STRATEGIES then Except.ok chunkingStrategy
  else Except.error (PyError.valueError "Unsupported chunking strategy: ")

/-- Which underlying chunking routine `Chunker.chunk` dispatches to. -/
inductive ChunkDispatch
  | semanticCall
  | fixedCall (chunkSize : Int)
  | sentenceCall (chunkSize : Option Int)
  deriving DecidableEq, Repr

/-- `Chunker.chunk` (chunking.py lines 251-273).  `strategyArg`/`chunkSize`
model the optional parameters (`none` = Python `None`); the expression
`chunking_strategy or self.chunking_strategy` also treats the empty string
as falsy.  With strategy `"fixed"` and `chunk_size=None`, the comparison
`chunk_size < 4` raises `TypeError` in Python 3. -/
def chunkerChunk (selfStrategy : String) (strategyArg : Option String)
    (chunkSize : Option Int) : Except PyError ChunkDispatch :=
  let strategy :=
    match strategyArg with
    | some s => if s = "" then selfStrategy else s
    | none => selfStrategy
  if strategy = "semantic" then Except.ok ChunkDispatch.semanticCall
  else if strategy = "fixed" then
    match chunkSize with
    | none => Except.error (PyError.typeError "unsupported comparison: NoneType < int")
    | some n =>
      if n < 4 then Except.error (PyError.valueError "Chunk size must be >= 4.")
      else Except.ok (ChunkDispatch.fixedCall n)
  else if strategy = "sentence" then Except.ok (ChunkDispatch.sentenceCall chunkSize)
  else Except.error (PyError.valueError "Unsupported chunking strategy")

/-! ### Batch accumulation tick
(`EmbeddingBatchProcessor._check_and_create_batch`,
batch_processor.py lines 495-530) -/

/-- The mutable `accumulation_state` dict of `EmbeddingBatchProcessor`
(batch_processor.py lines 457-460).  `time.time()` values are modelled as
integers: only their order and differences matter to the thresholds. -/
structure AccumulationState where
  lastSeenCount : Nat
  lastChangeTime : Int
  deriving DecidableEq, Repr

/-- The three threshold configuration constants read by the accumulation
tick (`EMBEDDING_BATCH_MIN_DOCUMENTS`, `EMBEDDING_BATCH_MAX_DOCUMENTS`,
`EMBEDDING_BATCH_ACCUMULATION_TIMEOUT_SECONDS`). -/
structure BatchThresholds where
  minDocuments : Nat
  maxDocuments : Nat
  accumulationTimeoutSeconds : Int
  deriving DecidableEq, Repr

/-- `_check_and_create_batch` (batch_processor.py lines 495-530) as a pure
state transformer: given the number of claimed pending items
(`len(items)`, where the query limit is `maxDocuments`) and the current
time, returns whether `create_batch` is invoked together with the new
accumulation state. -/
def checkAndCreateBatch (cfg : BatchThresholds) (st : AccumulationState)
    (currentCount : Nat) (currentTime : Int) : Bool × AccumulationState :=
  if currentCount = 0 then (false, st)
  else
    let st1 :=
      if currentCount ≠ st.lastSeenCount then
        { lastSeenCount := currentCount, lastChangeTime := currentTime }
      else st
    let timeSinceLastChange := currentTime - st1.lastChangeTime
    let shouldCreateBatch :=
      cfg.minDocuments ≤ currentCount ∧
        (cfg.maxDocuments ≤ currentCount ∨
          cfg.accumulationTimeoutSeconds ≤ timeSinceLastChange)
    if shouldCreateBatch then
      (true, { lastSeenCount := 0, lastChangeTime := currentTime })
    else (false, st1)

/-! ### Bedrock status polling and batch failure marking
(`BedrockBatchProvider.get_job_status`, batch_processor.py lines 205-235;
`_monitor_active_jobs` lines 678-705; `_mark_batch_failed` lines 707-715) -/

/-- The fields of a Bedrock `get_model_invocation_job` response that
`get_job_status` reads. -/
structure BedrockJobResponse where
  status : String
  message : Option String
  deriving DecidableEq, Repr

/-- The `status_map` dict of `get_job_status` (batch_processor.py
lines 221-228), with the `.get(status, 'processing')` default. -/
def bedrockStatusMap (s : String) : String :=
  if s = "Submitted" then "submitted"
  else if s = "InProgress" then "processing"
  else if s = "Completed" then "completed"
  else if s = "Failed" then "failed"
  else if s = "Stopping" then "processing"
  else if s = "Stopped" then "failed"
  else "processing"

/-- `BedrockBatchProvider.get_job_status` (batch_processor.py
lines 205-235): the provider call either returns a response or raises; any
exception is caught and mapped to `('failed', str(e))`. -/
def get_job_status (callResult : Except String BedrockJobResponse) :
    String × Option String :=
  match callResult with
  | Except.error e => ("failed", some e)
  | Except.ok r =>
    let errorMessage := if r.status = "Failed" then r.message else none
    (bedrockStatusMap r.status, errorMessage)

/-- A row of `embedding_queue` as touched by failure marking. -/
structure QueueItemRow where
  id : String
  status : String
  errorMessage : Option String
  deriving DecidableEq, Repr

/-- A row of `embedding_batch_jobs` as touched by monitoring. -/
structure BatchJobRow where
  id : String
  status : String
  errorMessage : Option String
  deriving DecidableEq, Repr

/-- `_mark_batch_failed` (batch_processor.py lines 707-715): set the batch
job to `failed` (`update_batch_job_status` only writes `error_message`
when it is not `None`, lines 329-332), and mark every queue item of the
batch `failed` with `error_message or "Batch job failed"`. -/
def mark_batch_failed (job : BatchJobRow) (items : List QueueItemRow)
    (errorMessage : Option String) : BatchJobRow × List QueueItemRow :=
  let job' := { job with
    status := "failed"
    errorMessage :=
      match errorMessage with
      | some m => some m
      | none => job.errorMessage }
  let items' := items.map fun it =>
    { it with status := "failed", errorMessage := some (errorMessage.getD "Batch job failed") }
  (job', items')

/-- The action `_monitor_active_jobs` (batch_processor.py lines 687-702)
takes for one active job after polling its status. -/
inductive MonitorAction
  | processResults
  | markFailed (errorMessage : Option String)
  | updateStatus (status : String)
  | noChange
  deriving DecidableEq, Repr

/-- The per-job body of `_monitor_active_jobs` (batch_processor.py
lines 687-702), as a function of the poll outcome and the job's stored
status. -/
def monitorJobStep (pollResult : Except String BedrockJobResponse)
    (jobStatus : String) : MonitorAction :=
  let r := get_job_status pollResult
  if r.1 = "completed" then MonitorAction.processResults
  else if r.1 = "failed" then MonitorAction.markFailed r.2
  else if r.1 ≠ jobStatus then MonitorAction.updateStatus r.1
  else MonitorAction.noChange

/-- The `WHERE status IN ('submitted', 'processing')` filter of
`get_active_batch_jobs` (batch_processor.py lines 286-298): only these
jobs are polled on later monitoring ticks. -/
def isActiveBatchStatus (s : String) : Bool := s = "submitted" || s = "processing"

/-- `get_active_batch_jobs` (batch_processor.py lines 286-298) over a
modelled `embedding_batch_jobs` table. -/
def get_active_batch_jobs (jobs : List BatchJobRow) : List BatchJobRow :=
  jobs.filter fun j => isActiveBatchStatus j.status

/-! ### Result ingestion: embedding replacement
(`EmbeddingBatchProcessor._store_embeddings`, batch_processor.py
lines 824-850, with `BatchDatabase.delete_embeddings_for_documents`
lines 432-441 and `BatchDatabase.bulk_insert_embeddings` lines 401-430).

`_store_embeddings` issues its delete and its COPY insert as two separate
calls on the connection pool; neither is wrapped in an explicit
transaction block, so under asyncpg each top-level call runs as its own
implicit transaction.  The embedding is the sequence of transactions the
function issues; `α` is the (opaque) vector payload type. -/

/-- One parsed chunk record of `embeddings_by_doc` (the dicts built by
`_parse_and_group_embeddings`, batch_processor.py lines 806-811). -/
structure ChunkRecord (α : Type) where
  chunkIndex : Nat
  start : Nat
  stop : Nat
  embedding : α
  deriving DecidableEq, Repr

/-- A row of the `embeddings` table as written by the bulk insert
(batch_processor.py lines 837-845).  The fresh random ULID `id` and the
`created_at` timestamp are irrelevant to replacement and omitted. -/
structure InsertedEmbeddingRow (α : Type) where
  document_id : String
  chunk_index : Nat
  chunk_start_offset : Nat
  chunk_end_offset : Nat
  embedding : α
  model_name : String
  deriving DecidableEq, Repr

/-- A SQL statement issued by `_store_embeddings`. -/
inductive DbStatement (α : Type)
  | deleteEmbeddingsForDocuments (documentIds : List String)
  | copyInsertEmbeddings (rows : List (InsertedEmbeddingRow α))
  deriving DecidableEq, Repr

/-- One implicit transaction: the statements of a single top-level pool
call (asyncpg runs each such call in its own transaction). -/
abbrev DbTransaction (α : Type) := List (DbStatement α)

/-- `_store_embeddings(embeddings_by_doc)` (batch_processor.py
lines 824-850): the list of transactions it issues, in order.  The input
dict is modelled as an association list in iteration order. -/
def store_embeddings (modelName : String)
    (embeddingsByDoc : List (String × List (ChunkRecord α))) :
    List (DbTransaction α) :=
  if embeddingsByDoc.isEmpty then []
  else
    let documentIds := embeddingsByDoc.map Prod.fst
    let allEmbeddings :=
      (embeddingsByDoc.map fun p =>
        p.2.map fun c =>
          InsertedEmbeddingRow.mk p.1 c.chunkIndex c.start c.stop c.embedding modelName).flatten
    [[DbStatement.deleteEmbeddingsForDocuments documentIds],
     [DbStatement.copyInsertEmbeddings allEmbeddings]]

/-- Recognizer for the delete statement of `_store_embeddings`. -/
def isDeleteStmt : DbStatement α → Bool
  | DbStatement.deleteEmbeddingsForDocuments _ => true
  | _ => false

/-- Recognizer for the COPY-insert statement of `_store_embeddings`. -/
def isInsertStmt : DbStatement α → Bool
  | DbStatement.copyInsertEmbeddings _ => true
  | _ => false

/-- Effect of one statement on the `embeddings` table. -/
def applyDbStatement (db : List (InsertedEmbeddingRow α)) :
    DbStatement α → List (InsertedEmbeddingRow α)
  | DbStatement.deleteEmbeddingsForDocuments ids =>
    db.filter fun r => !(ids.contains r.document_id)
  | DbStatement.copyInsertEmbeddings rows => db ++ rows

/-- Effect of a whole transaction on the `embeddings` table (committed
atomically; intermediate states inside a transaction are not readable). -/
def applyDbTransaction (db : List (InsertedEmbeddingRow α))
    (tx : DbTransaction α) : List (InsertedEmbeddingRow α) :=
  tx.foldl applyDbStatement db

/-! ### Notion connector: full sync
(`connectors/notion/notion_connector/connector.py`, `_full_sync`
lines 83-170, `_sync_database_entries` lines 278-321, `_sync_page`
lines 323-342, `_sync_database` lines 263-276).

The model is an operational embedding of `_full_sync` over a
deterministic world: the paginated responses the Notion API would return,
and the cancellation signal as a function of time.  Time is a counter
(`clock`) advanced once per client round-trip (search/query call, or the
block-fetch + content save of one object); `datetime.now()` reads the
counter.  Modelled worlds raise no `NotionError`, so the `except` \\
`emit_error` arms of the source are never taken; the side effects the
connector performs on its `SyncContext` are recorded as an event trace. -/

/-- `CHECKPOINT_INTERVAL` (notion_connector/config.py). -/
def CHECKPOINT_INTERVAL : Nat := 50

/-- A Notion search/query result object; the full-sync driver only reads
its `id`. -/
structure NotionObject where
  id : String
  deriving DecidableEq, Repr

/-- The deterministic environment of one full sync. -/
structure NotionWorld where
  /-- Successive `search_databases` responses; the last one answers
  `has_more = False`. -/
  databasePages : List (List NotionObject)
  /-- Successive `search_pages` responses. -/
  pagePages : List (List NotionObject)
  /-- Successive `query_database` responses, per database id. -/
  databaseEntryPages : String → List (List NotionObject)
  /-- `ctx.is_cancelled()` as a function of the clock. -/
  cancelledAt : Nat → Bool

/-- A side effect the connector performs on its `SyncContext`.
`complete` carries the `last_sync_at` value of the new state, i.e. the
clock reading of the `datetime.now(timezone.utc)` call that produced it;
`saveState` is the `ctx.save_state({})` checkpoint. -/
inductive SyncEvent
  | emit (documentId : String)
  | incrementScanned
  | saveState
  | complete (lastSyncAt : Nat)
  | fail (message : String)
  deriving DecidableEq, Repr

/-- The state threaded through the full-sync driver: the clock, the local
`docs_emitted` counter, the accumulated `database_page_ids`, and the event
trace so far. -/
structure SyncAcc where
  clock : Nat
  docsEmitted : Nat
  databasePageIds : List String
  events : List SyncEvent
  deriving DecidableEq, Repr

/-- `_sync_page` (connector.py lines 323-342) as the full-sync driver
sees it: one round-trip (`get_all_blocks` plus the content save), then
`ctx.emit`, and `docs_emitted` incremented. -/
def notionSyncPage (acc : SyncAcc) (pageId : String) : SyncAcc :=
  { acc with
    clock := acc.clock + 1
    events := acc.events ++ [SyncEvent.emit pageId]
    docsEmitted := acc.docsEmitted + 1 }

/-- The checkpoint step `if docs_emitted >= CHECKPOINT_INTERVAL:
await ctx.save_state(...); docs_emitted = 0` (connector.py lines 156-158,
313-315). -/
def notionCheckpoint (acc : SyncAcc) : SyncAcc :=
  if CHECKPOINT_INTERVAL ≤ acc.docsEmitted then
    { acc with events := acc.events ++ [SyncEvent.saveState], docsEmitted := 0 }
  else acc

/-- The `for page in pages` body of `_sync_database_entries`
(connector.py lines 296-315).  On observing cancellation it `break`s
without failing; the returned flag records the break. -/
def notionEntriesFor (cancelled : Nat → Bool) :
    List NotionObject → SyncAcc → SyncAcc × Bool
  | [], acc => (acc, false)
  | p :: ps, acc =>
    if cancelled acc.clock then (acc, true)
    else
      let acc1 := { acc with
        databasePageIds := acc.databasePageIds ++ [p.id]
        events := acc.events ++ [SyncEvent.incrementScanned] }
      notionEntriesFor cancelled ps (notionCheckpoint (notionSyncPage acc1 p.id))

/-- The pagination loop of `_sync_database_entries` (connector.py
lines 289-319): poll cancellation, issue `query_database` (one clock
tick), process the page of results, stop on cancellation or when
`has_more` is false. -/
def notionEntriesWhile (cancelled : Nat → Bool) :
    List (List NotionObject) → SyncAcc → SyncAcc
  | [], acc =>
    if cancelled acc.clock then acc else { acc with clock := acc.clock + 1 }
  | r :: rs, acc =>
    if cancelled acc.clock then acc
    else
      let res := notionEntriesFor cancelled r { acc with clock := acc.clock + 1 }
      if res.2 then res.1
      else
        match rs with
        | [] => res.1
        | _ :: _ => notionEntriesWhile cancelled rs res.1

/-- The `for db in databases` body of phase 1 of `_full_sync`
(connector.py lines 102-121): poll cancellation (failing the sync with
`"Cancelled by user"` on observation, lines 103-105), `increment_scanned`,
`_sync_database` (one round-trip, then emit), then the database's
entries.  The flag records that the sync was finalized by `fail`. -/
def notionFullSyncDbFor (w : NotionWorld) :
    List NotionObject → SyncAcc → SyncAcc × Bool
  | [], acc => (acc, false)
  | db :: dbs, acc =>
    if w.cancelledAt acc.clock then
      ({ acc with events := acc.events ++ [SyncEvent.fail "Cancelled by user"] }, true)
    else
      notionFullSyncDbFor w dbs
        (notionEntriesWhile w.cancelledAt (w.databaseEntryPages db.id)
          { acc with
            clock := acc.clock + 1
            docsEmitted := acc.docsEmitted + 1
            events := acc.events ++ [SyncEvent.incrementScanned, SyncEvent.emit db.id] })

/-- Phase 1 pagination of `_full_sync` (connector.py lines 93-125):
poll cancellation (lines 95-97), `search_databases` (one clock tick),
process the page, continue while `has_more`. -/
def notionFullSyncDbWhile (w : NotionWorld) :
    List (List NotionObject) → SyncAcc → SyncAcc × Bool
  | [], acc =>
    if w.cancelledAt acc.clock then
      ({ acc with events := acc.events ++ [SyncEvent.fail "Cancelled by user"] }, true)
    else ({ acc with clock := acc.clock + 1 }, false)
  | r :: rs, acc =>
    if w.cancelledAt acc.clock then
      ({ acc with events := acc.events ++ [SyncEvent.fail "Cancelled by user"] }, true)
    else
      let res := notionFullSyncDbFor w r { acc with clock := acc.clock + 1 }
      if res.2 then (res.1, true)
      else
        match rs with
        | [] => (res.1, false)
        | _ :: _ => notionFullSyncDbWhile w rs res.1

/-- The `for page in pages` body of phase 2 of `_full_sync`
(connector.py lines 137-158): poll cancellation (lines 138-140), skip
pages already seen as database entries, `increment_scanned`, `_sync_page`,
checkpoint. -/
def notionFullSyncPageFor (w : NotionWorld) :
    List NotionObject → SyncAcc → SyncAcc × Bool
  | [], acc => (acc, false)
  | p :: ps, acc =>
    if w.cancelledAt acc.clock then
      ({ acc with events := acc.events ++ [SyncEvent.fail "Cancelled by user"] }, true)
    else if p.id ∈ acc.databasePageIds then
      notionFullSyncPageFor w ps acc
    else
      notionFullSyncPageFor w ps
        (notionCheckpoint
          { acc with
            clock := acc.clock + 1
            docsEmitted := acc.docsEmitted + 1
            events := acc.events ++ [SyncEvent.incrementScanned, SyncEvent.emit p.id] })

/-- Phase 2 pagination of `_full_sync` (connector.py lines 129-162). -/
def notionFullSyncPageWhile (w : NotionWorld) :
    List (List NotionObject) → SyncAcc → SyncAcc × Bool
  | [], acc =>
    if w.cancelledAt acc.clock then
      ({ acc with events := acc.events ++ [SyncEvent.fail "Cancelled by user"] }, true)
    else ({ acc with clock := acc.clock + 1 }, false)
  | r :: rs, acc =>
    if w.cancelledAt acc.clock then
      ({ acc with events := acc.events ++ [SyncEvent.fail "Cancelled by user"] }, true)
    else
      let res := notionFullSyncPageFor w r { acc with clock := acc.clock + 1 }
      if res.2 then (res.1, true)
      else
        match rs with
        | [] => (res.1, false)
        | _ :: _ => notionFullSyncPageWhile w rs res.1

/-- `_full_sync` (connector.py lines 83-170), started at clock
`startClock` (the time at which the sync begins).  After both phases,
`now = datetime.now(timezone.utc).isoformat()` is taken (line 164) —
reading the clock at that moment — and
`ctx.complete(new_state={"last_sync_at": now})` is called (line 165). -/
def notion_full_sync (w : NotionWorld) (startClock : Nat) : SyncAcc :=
  let acc0 : SyncAcc :=
    { clock := startClock, docsEmitted := 0, databasePageIds := [], events := [] }
  let r1 := notionFullSyncDbWhile w w.databasePages acc0
  if r1.2 then r1.1
  else
    let r2 := notionFullSyncPageWhile w w.pagePages r1.1
    if r2.2 then r2.1
    else { r2.1 with events := r2.1.events ++ [SyncEvent.complete r2.1.clock] }

/-! ## Theorems -/

/-! ### recordId round trip (claim C1) -/

theorem splitOnColon_ne_nil (cs : List Char) : splitOnColon cs ≠ [] := by
  induction cs with
  | nil => simp [splitOnColon]
  | cons c cs ih =>
    rw [splitOnColon]
    split
    · simp
    · cases h : splitOnColon cs with
      | nil => simp
      | cons g gs => simp

theorem splitOnColon_append (d rest : List Char) (hd : ':' ∉ d) :
    splitOnColon (d ++ ':' :: rest) = d :: splitOnColon rest := by
  induction d with
  | nil => simp [splitOnColon]
  | cons c d ih =>
    have hc : ¬ (c = ':') := fun h => hd (h ▸ List.mem_cons_self c d)
    rw [List.cons_append, splitOnColon, if_neg hc,
      ih (fun h => hd (List.mem_cons_of_mem _ h))]

theorem splitOnColon_no_colon (cs : List Char) (h : ':' ∉ cs) :
    splitOnColon cs = [cs] := by
  induction cs with
  | nil => simp [splitOnColon]
  | cons c cs ih =>
    have hc : ¬ (c = ':') := fun hh => h (hh ▸ List.mem_cons_self c cs)
    rw [splitOnColon, if_neg hc, ih (fun hh => h (List.mem_cons_of_mem _ hh))]

theorem isDigitChar_digitChar (d : Nat) : isDigitChar (digitChar d) = true := by
  rcases d with _|_|_|_|_|_|_|_|_|d <;> rfl

theorem digitChar_toNat (d : Nat) (h : d < 10) : (digitChar d).toNat - 48 = d := by
  interval_cases d <;> rfl

theorem natDigitsRev_lt_ten (fuel n : Nat) : ∀ d ∈ natDigitsRev fuel n, d < 10 := by
  induction fuel generalizing n with
  | zero => simp [natDigitsRev]
  | succ fuel ih =>
    rw [natDigitsRev]
    split
    · simp
    · intro d hd
      rcases List.mem_cons.mp hd with rfl | hd
      · omega
      · exact ih (n / 10) d hd

theorem natDigitsRev_ofDigits (fuel n : Nat) (h : n ≤ fuel) :
    Nat.ofDigits 10 (natDigitsRev fuel n) = n := by
  induction fuel generalizing n with
  | zero =>
    have : n = 0 := by omega
    simp [natDigitsRev, this, Nat.ofDigits_nil]
  | succ fuel ih =>
    rw [natDigitsRev]
    split
    · simp only [Nat.ofDigits_nil]
      omega
    · rename_i hn
      have hlt : n / 10 < n := Nat.div_lt_self (by omega) (by norm_num)
      rw [Nat.ofDigits_cons, ih (n / 10) (by omega)]
      omega

theorem mem_natToChars_isDigit (n : Nat) : ∀ c ∈ natToChars n, isDigitChar c = true := by
  rw [natToChars]
  split
  · intro c hc
    rw [List.mem_singleton] at hc
    subst hc
    rfl
  · intro c hc
    rw [List.mem_map] at hc
    obtain ⟨d, _, rfl⟩ := hc
    exact isDigitChar_digitChar d

theorem colon_not_mem_natToChars (n : Nat) : ':' ∉ natToChars n := by
  intro h
  have := mem_natToChars_isDigit n ':' h
  simp [isDigitChar] at this

theorem foldr_ofDigits (L : List Nat) :
    L.foldr (fun d a => a * 10 + d) 0 = Nat.ofDigits 10 L := by
  induction L with
  | nil => simp [Nat.ofDigits_nil]
  | cons d L ih =>
    rw [List.foldr_cons, ih, Nat.ofDigits_cons]
    ring

theorem foldr_digitChar_val (L : List Nat) (hL : ∀ d ∈ L, d < 10) (acc : Nat) :
    L.foldr (fun d a => a * 10 + ((digitChar d).toNat - 48)) acc =
      L.foldr (fun d a => a * 10 + d) acc := by
  induction L with
  | nil => rfl
  | cons d L ih =>
    rw [List.foldr_cons, List.foldr_cons,
      ih (fun x hx => hL x (List.mem_cons_of_mem _ hx)),
      digitChar_toNat d (hL d (List.mem_cons_self d L))]

theorem parseIntChars_natToChars (n : Nat) : parseIntChars (natToChars n) = some n := by
  by_cases hn : n = 0
  · subst hn
    decide
  · have hne : natToChars n ≠ [] := by
      rw [natToChars, if_neg hn]
      rcases n with _ | m
      · omega
      · rw [natDigitsRev]
        simp [hn]
    have hall : (natToChars n).all isDigitChar = true :=
      List.all_eq_true.mpr (fun c hc => mem_natToChars_isDigit n c hc)
    rw [parseIntChars, if_pos ⟨hne, hall⟩]
    congr 1
    rw [natToChars, if_neg hn, List.foldl_map, List.foldl_reverse,
      foldr_digitChar_val _ (natDigitsRev_lt_ten n n) 0, foldr_ofDigits]
    exact natDigitsRev_ofDigits n n le_rfl

/-- C1, counterexample.  The claim asserts the recordId round trip holds
even when `document_id` contains `':'`, because parsing supposedly splits
from the right.  The code splits on every `':'` and requires exactly 4
parts (`record_id.split(':')`, `len(parts) != 4`), so the record id
formatted for `document_id = "a:b"`, `chunk_index = 0`, `start = 0`,
`end = 1` — which contains no newline — fails to parse at all. -/
theorem recordId_roundtrip_colon_counterexample :
    parseRecordId (formatRecordId ['a', ':', 'b'] 0 0 1) ≠
      some (['a', ':', 'b'], 0, 0, 1) ∧
    parseRecordId (formatRecordId ['a', ':', 'b'] 0 0 1) = none := by
  constructor
  · decide
  · decide

/-- C1, amended.  For every `document_id` containing no `':'` character
(in particular no newline constraint is needed beyond that), every
`chunk_index`, `start` and `end`, parsing the formatted recordId recovers
exactly the four fields. -/
theorem recordId_roundtrip_no_colon (docId : List Char) (i s e : Nat)
    (hd : ':' ∉ docId) :
    parseRecordId (formatRecordId docId i s e) = some (docId, i, s, e) := by
  have hsplit : splitOnColon (formatRecordId docId i s e) =
      [docId, natToChars i, natToChars s, natToChars e] := by
    rw [formatRecordId,
      splitOnColon_append docId _ hd,
      splitOnColon_append _ _ (colon_not_mem_natToChars i),
      splitOnColon_append _ _ (colon_not_mem_natToChars s),
      splitOnColon_no_colon _ (colon_not_mem_natToChars e)]
  rw [parseRecordId, hsplit]
  simp [parseIntChars_natToChars]

/-- C1, witness for the amended round trip at a concrete input. -/
theorem recordId_roundtrip_no_colon_witness :
    parseRecordId (formatRecordId ['d', 'o', 'c'] 12 0 157) =
      some (['d', 'o', 'c'], 12, 0, 157) :=
  recordId_roundtrip_no_colon ['d', 'o', 'c'] 12 0 157 (by decide)

/-! ### Chunker error handling (claim C10) -/

/-- C10: `Chunker.chunk` with effective strategy `"fixed"` and an integer
`chunk_size < 4` raises `ValueError` (chunking.py lines 266-268), and
`Chunker.__init__` with a strategy outside `CHUNKING_STRATEGIES` raises
`ValueError` (lines 72-73). -/
theorem chunker_invalid_arguments_valueError :
    (∀ (selfStrategy : String) (strategyArg : Option String) (n : Int),
      (strategyArg = some "fixed" ∨
        (strategyArg = none ∧ selfStrategy = "fixed") ∨
        (strategyArg = some "" ∧ selfStrategy = "fixed")) →
      n < 4 →
      chunkerChunk selfStrategy strategyArg (some n) =
        Except.error (PyError.valueError "Chunk size must be >= 4.")) ∧
    (∀ s : String, s ∉ CHUNKING_STRATEGIES →
      chunkerInit s = Except.error (PyError.valueError "Unsupported chunking strategy: ")) := by
  constructor
  · intro selfStrategy strategyArg n hfixed hn
    rcases hfixed with rfl | ⟨rfl, rfl⟩ | ⟨rfl, rfl⟩ <;>
      simp [chunkerChunk, hn]
  · intro s hs
    rw [chunkerInit, if_neg hs]

/-- C10, witness: concrete invalid inputs. -/
theorem chunker_invalid_arguments_valueError_witness :
    chunkerChunk "sentence" (some "fixed") (some 3) =
      Except.error (PyError.valueError "Chunk size must be >= 4.") ∧
    chunkerInit "words" =
      Except.error (PyError.valueError "Unsupported chunking strategy: ") :=
  ⟨chunker_invalid_arguments_valueError.1 "sentence" (some "fixed") 3 (Or.inl rfl)
      (by norm_num),
    chunker_invalid_arguments_valueError.2 "words" (by decide)⟩

/-! ### Accumulation-loop tick (claim C5) -/

/-- C5: on an accumulation tick with `count` claimed pending items, a
batch is created exactly when `count ≥ EMBEDDING_BATCH_MIN_DOCUMENTS` and
(`count ≥ EMBEDDING_BATCH_MAX_DOCUMENTS` or the time since the pending
count last changed is `≥ EMBEDDING_BATCH_ACCUMULATION_TIMEOUT_SECONDS`);
a tick with no pending items does nothing, and the accumulation tracker
is reset (to count 0, stamped with the current time) exactly when a batch
is created, otherwise it records the observed count and its last change
time. -/
theorem accumulation_tick_thresholds (cfg : BatchThresholds)
    (st : AccumulationState) (count : Nat) (now : Int) :
    (count = 0 → checkAndCreateBatch cfg st count now = (false, st)) ∧
    (0 < count →
      ((checkAndCreateBatch cfg st count now).1 = true ↔
        (cfg.minDocuments ≤ count ∧
          (cfg.maxDocuments ≤ count ∨
            cfg.accumulationTimeoutSeconds ≤
              now - (if count ≠ st.lastSeenCount then now else st.lastChangeTime)))) ∧
      ((checkAndCreateBatch cfg st count now).1 = true →
        (checkAndCreateBatch cfg st count now).2 = ⟨0, now⟩) ∧
      ((checkAndCreateBatch cfg st count now).1 = false →
        (checkAndCreateBatch cfg st count now).2 =
          ⟨count, if count ≠ st.lastSeenCount then now else st.lastChangeTime⟩)) := by
  constructor
  · intro h0
    rw [checkAndCreateBatch, if_pos h0]
  · intro hpos
    have h0 : ¬ (count = 0) := by omega
    rw [checkAndCreateBatch, if_neg h0]
    simp only []
    split_ifs with hch hsc hsc <;>
      simp_all

/-- C5, witness: with thresholds (min 2, max 5, timeout 30), a stable
count of 3 observed 40 ticks after its last change creates a batch and
resets the tracker. -/
theorem accumulation_tick_thresholds_witness :
    (checkAndCreateBatch ⟨2, 5, 30⟩ ⟨3, 100⟩ 3 140).1 = true ∧
    (checkAndCreateBatch ⟨2, 5, 30⟩ ⟨3, 100⟩ 3 140).2 = ⟨0, 140⟩ := by
  have h := (accumulation_tick_thresholds ⟨2, 5, 30⟩ ⟨3, 100⟩ 3 140).2 (by norm_num)
  have h1 : (checkAndCreateBatch ⟨2, 5, 30⟩ ⟨3, 100⟩ 3 140).1 = true := by
    apply h.1.mpr
    refine ⟨by norm_num, Or.inr ?_⟩
    norm_num
  exact ⟨h1, h.2.1 h1⟩

/-! ### Failed status poll permanently fails the batch (claim C9) -/

/-- C9: if the provider poll raises, `get_job_status` returns
`('failed', str(e))`; the monitoring step then marks the batch job and
every one of its queue items failed with that message; and a `failed`
batch job is excluded by the `status IN ('submitted','processing')`
filter of `get_active_batch_jobs`, so it is never polled (hence never
retried) again. -/
theorem poll_exception_fails_batch_permanently (e : String) (jobStatus : String)
    (job : BatchJobRow) (items : List QueueItemRow) :
    get_job_status (Except.error e) = ("failed", some e) ∧
    monitorJobStep (Except.error e) jobStatus = MonitorAction.markFailed (some e) ∧
    (mark_batch_failed job items (some e)).1.status = "failed" ∧
    (mark_batch_failed job items (some e)).1.errorMessage = some e ∧
    (∀ it ∈ (mark_batch_failed job items (some e)).2,
      it.status = "failed" ∧ it.errorMessage = some e) ∧
    get_active_batch_jobs [(mark_batch_failed job items (some e)).1] = [] := by
  refine ⟨rfl, ?_, rfl, rfl, ?_, ?_⟩
  · rw [monitorJobStep]
    simp [get_job_status]
  · intro it hit
    rw [mark_batch_failed] at hit
    simp only [List.mem_map] at hit
    obtain ⟨it0, _, rfl⟩ := hit
    exact ⟨rfl, rfl⟩
  · rw [get_active_batch_jobs, mark_batch_failed]
    simp [isActiveBatchStatus]

/-- C9, witness: a concrete poll exception fails the batch's item. -/
theorem poll_exception_fails_batch_permanently_witness :
    monitorJobStep (Except.error "connection reset") "submitted" =
      MonitorAction.markFailed (some "connection reset") ∧
    ((mark_batch_failed ⟨"b1", "processing", none⟩
        [⟨"q1", "processing", none⟩] (some "connection reset")).2.headD
        ⟨"", "", none⟩).status = "failed" := by
  have h := poll_exception_fails_batch_permanently "connection reset" "submitted"
    ⟨"b1", "processing", none⟩ [⟨"q1", "processing", none⟩]
  refine ⟨h.2.1, ?_⟩
  have hm := h.2.2.2.2.1 ⟨"q1", "failed", some "connection reset"⟩ (by decide)
  have hl : (mark_batch_failed (⟨"b1", "processing", none⟩ : BatchJobRow)
      [(⟨"q1", "processing", none⟩ : QueueItemRow)] (some "connection reset")).2 =
      [⟨"q1", "failed", some "connection reset"⟩] := rfl
  rw [hl]
  exact hm.1

/-! ### Fixed-size character chunking (claim C7, and the `chunk_by_chars`
half of claim C4) -/

theorem buildCharChunks_eq_cons (len step : Nat) (h : 0 < step) (i : Nat)
    (hlt : i < len) :
    buildCharChunks len step h i =
      (i, min (i + step) len) :: buildCharChunks len step h (i + step) := by
  rw [buildCharChunks, dif_pos hlt]

theorem buildCharChunks_eq_nil (len step : Nat) (h : 0 < step) (i : Nat)
    (hge : ¬ i < len) : buildCharChunks len step h i = [] := by
  rw [buildCharChunks, dif_neg hge]

theorem buildCharChunks_valid (len step : Nat) (h : 0 < step) (i : Nat) :
    ∀ q ∈ buildCharChunks len step h i, i ≤ q.1 ∧ q.1 < q.2 ∧ q.2 ≤ len := by
  induction i using buildCharChunks.induct len step h with
  | case1 i hlt ih =>
    intro q hq
    rw [buildCharChunks, dif_pos hlt] at hq
    rcases List.mem_cons.mp hq with rfl | hq
    · simp only []
      omega
    · have := ih q hq
      omega
  | case2 i hge =>
    intro q hq
    rw [buildCharChunks, dif_neg hge] at hq
    simp at hq

theorem buildCharChunks_getElem? (len step : Nat) (h : 0 < step) (i : Nat) :
    ∀ j, j < (buildCharChunks len step h i).length →
      (buildCharChunks len step h i)[j]? =
        some (i + j * step, min (i + j * step + step) len) := by
  induction i using buildCharChunks.induct len step h with
  | case1 i hlt ih =>
    intro j hj
    rw [buildCharChunks_eq_cons len step h i hlt] at hj ⊢
    cases j with
    | zero => simp
    | succ j =>
      rw [List.length_cons] at hj
      have hj' : j < (buildCharChunks len step h (i + step)).length := by omega
      have harith : i + step + j * step = i + (j + 1) * step := by ring
      rw [List.getElem?_cons_succ, ih j hj', harith]
  | case2 i hge =>
    intro j hj
    rw [buildCharChunks_eq_nil len step h i hge] at hj
    simp at hj

theorem buildCharChunks_get (len step : Nat) (h : 0 < step) (i : Nat) :
    ∀ j (hj : j < (buildCharChunks len step h i).length),
      (buildCharChunks len step h i).get ⟨j, hj⟩ =
        (i + j * step, min (i + j * step + step) len) := by
  intro j hj
  have h1 := buildCharChunks_getElem? len step h i j hj
  rw [List.getElem?_eq_getElem hj] at h1
  rw [List.get_eq_getElem]
  exact Option.some.inj h1

theorem buildCharChunks_cover (len step : Nat) (h : 0 < step) (i : Nat) :
    ∀ p, i ≤ p → p < len →
      ∃ q ∈ buildCharChunks len step h i, q.1 ≤ p ∧ p < q.2 := by
  induction i using buildCharChunks.induct len step h with
  | case1 i hlt ih =>
    intro p hip hpl
    rw [buildCharChunks, dif_pos hlt]
    by_cases hc : p < i + step
    · exact ⟨(i, min (i + step) len), List.mem_cons_self _ _, hip, by omega⟩
    · obtain ⟨q, hq, hq2⟩ := ih p (by omega) hpl
      exact ⟨q, List.mem_cons_of_mem _ hq, hq2⟩
  | case2 i hge =>
    intro p hip hpl
    omega

theorem buildCharChunks_chain (len step : Nat) (h : 0 < step) (i : Nat) :
    List.Chain' (fun a b : Nat × Nat => a.2 ≤ b.1) (buildCharChunks len step h i) := by
  induction i using buildCharChunks.induct len step h with
  | case1 i hlt ih =>
    rw [buildCharChunks_eq_cons len step h i hlt]
    refine List.chain'_cons'.mpr ⟨?_, ih⟩
    intro y hy
    by_cases h2 : i + step < len
    · rw [buildCharChunks_eq_cons len step h (i + step) h2] at hy
      simp only [List.head?_cons, Option.mem_def, Option.some.injEq] at hy
      subst hy
      simp only []
      omega
    · rw [buildCharChunks_eq_nil len step h (i + step) h2] at hy
      simp at hy
  | case2 i hge =>
    rw [buildCharChunks_eq_nil len step h i hge]
    simp

theorem chunk_by_chars_nonempty (text : List Char) (m : Int)
    (ht : text ≠ []) (hm : 1 ≤ m) :
    chunk_by_chars text m =
      buildCharChunks text.length m.toNat (by omega) 0 := by
  have hcond : ¬ (text.length = 0 ∨ m < 1) := by
    intro hc
    rcases hc with hc | hc
    · exact ht (List.length_eq_zero.mp hc)
    · omega
  rw [chunk_by_chars, dif_neg hcond]
  have hne : buildCharChunks text.length m.toNat (by omega) 0 ≠ [] := by
    rw [buildCharChunks, dif_pos (by
      have := List.length_pos.mpr ht
      omega)]
    simp
  simp only [if_neg hne]

/-- C7: for nonempty text and `max_chars ≥ 1`, `chunk_by_chars` returns
the consecutive spans `(0, m), (m, 2m), …`: the `j`-th span is
`(j·m, min((j+1)·m, len))`, every span but the last has length exactly
`m`, and the spans cover every character; for `max_chars < 1` it returns
the empty list. -/
theorem chunk_by_chars_fixed_windows (text : List Char) (m : Int) :
    (m < 1 → chunk_by_chars text m = []) ∧
    (text ≠ [] → 1 ≤ m →
      (∀ j (hj : j < (chunk_by_chars text m).length),
        (chunk_by_chars text m).get ⟨j, hj⟩ =
          (j * m.toNat, min (j * m.toNat + m.toNat) text.length)) ∧
      (∀ j (hj : j < (chunk_by_chars text m).length), j + 1 < (chunk_by_chars text m).length →
        ((chunk_by_chars text m).get ⟨j, hj⟩).2 - ((chunk_by_chars text m).get ⟨j, hj⟩).1
          = m.toNat) ∧
      (∀ p, p < text.length → ∃ q ∈ chunk_by_chars text m, q.1 ≤ p ∧ p < q.2)) := by
  constructor
  · intro hm
    rw [chunk_by_chars, dif_pos (Or.inr hm)]
  · intro ht hm
    have hstep : 0 < m.toNat := by omega
    rw [chunk_by_chars_nonempty text m ht hm]
    refine ⟨?_, ?_, ?_⟩
    · intro j hj
      have := buildCharChunks_get text.length m.toNat hstep 0 j hj
      simpa using this
    · intro j hj hj1
      have hgj := buildCharChunks_get text.length m.toNat hstep 0 j hj
      have hgj1 := buildCharChunks_get text.length m.toNat hstep 0 (j + 1) hj1
      have hv := buildCharChunks_valid text.length m.toNat hstep 0 _
        (List.get_mem _ _ hj1)
      rw [hgj1] at hv
      have hr : (j + 1) * m.toNat = j * m.toNat + m.toNat := by ring
      rw [hr] at hv
      rw [hgj]
      simp only [Nat.zero_add] at hv ⊢
      omega
    · intro p hp
      exact buildCharChunks_cover text.length m.toNat hstep 0 p (Nat.zero_le p) hp

/-- C7, witness: a concrete nonempty text with `max_chars = 3`. -/
theorem chunk_by_chars_fixed_windows_witness :
    chunk_by_chars ['a', 'b', 'c', 'd', 'e'] (-2) = [] ∧
    (chunk_by_chars ['a', 'b', 'c', 'd', 'e'] 3).length = 2 ∧
    ∃ q ∈ chunk_by_chars ['a', 'b', 'c', 'd', 'e'] 3, q.1 ≤ 4 ∧ 4 < q.2 := by
  have h := chunk_by_chars_fixed_windows ['a', 'b', 'c', 'd', 'e'] 3
  have h2 := h.2 (by decide) (by norm_num)
  refine ⟨(chunk_by_chars_fixed_windows ['a', 'b', 'c', 'd', 'e'] (-2)).1 (by norm_num),
    ?_, h2.2.2 4 (by norm_num)⟩
  simp [chunk_by_chars_nonempty ['a', 'b', 'c', 'd', 'e'] 3 (by decide) (by norm_num),
    buildCharChunks]

/-! ### Embedding replacement is not transactional (claim C2) -/

/-- C2, counterexample.  At a concrete re-embedding input,
`_store_embeddings` issues exactly two implicit transactions — the delete
in the first, the COPY insert in the second — and no single transaction
of the trace contains both, contradicting the claim that the delete and
the bulk insert happen within one database transaction. -/
theorem store_embeddings_not_single_transaction :
    store_embeddings "amazon.titan-embed-text-v2:0"
        [("doc1", [ChunkRecord.mk 0 0 5 (100 : Nat), ChunkRecord.mk 1 5 9 101])] =
      [[DbStatement.deleteEmbeddingsForDocuments ["doc1"]],
       [DbStatement.copyInsertEmbeddings
          [InsertedEmbeddingRow.mk "doc1" 0 0 5 100 "amazon.titan-embed-text-v2:0",
           InsertedEmbeddingRow.mk "doc1" 1 5 9 101 "amazon.titan-embed-text-v2:0"]]] ∧
    ¬ ∃ tx ∈ store_embeddings "amazon.titan-embed-text-v2:0"
        [("doc1", [ChunkRecord.mk 0 0 5 (100 : Nat), ChunkRecord.mk 1 5 9 101])],
        (∃ s ∈ tx, isDeleteStmt s = true) ∧ (∃ s ∈ tx, isInsertStmt s = true) := by
  constructor
  · rfl
  · decide

/-- C2, amended.  For every nonempty `embeddings_by_doc`,
`_store_embeddings` issues the delete of all old rows and the bulk insert
of all new rows as two separate implicit transactions (one per pool
call), in that order; each single statement is atomic, and after the
first transaction commits — before the second — the table holds no
embedding row at all for any of the re-embedded documents, so a reader
at that point observes the documents with zero chunks (though never a
mix of old and new rows). -/
theorem store_embeddings_two_transactions (modelName : String)
    (byDoc : List (String × List (ChunkRecord α))) (h : byDoc ≠ []) :
    store_embeddings modelName byDoc =
      [[DbStatement.deleteEmbeddingsForDocuments (byDoc.map Prod.fst)],
       [DbStatement.copyInsertEmbeddings
          ((byDoc.map fun p =>
            p.2.map fun c =>
              InsertedEmbeddingRow.mk p.1 c.chunkIndex c.start c.stop c.embedding
                modelName).flatten)]] ∧
    (∀ db : List (InsertedEmbeddingRow α), ∀ d ∈ byDoc.map Prod.fst,
      ∀ r ∈ applyDbTransaction db
          [DbStatement.deleteEmbeddingsForDocuments (byDoc.map Prod.fst)],
        r.document_id ≠ d) := by
  constructor
  · rw [store_embeddings, if_neg (by simpa [List.isEmpty_iff] using h)]
  · intro db d hd r hr
    rw [applyDbTransaction, List.foldl_cons, List.foldl_nil, applyDbStatement] at hr
    rw [List.mem_filter] at hr
    intro hrd
    have h2 := hr.2
    rw [hrd] at h2
    revert h2 hd
    generalize byDoc.map Prod.fst = ids
    intro hd h2
    simp at h2
    exact h2 hd

/-- C2, witness: a concrete one-document re-embedding, and the emptied
intermediate table state between the two transactions. -/
theorem store_embeddings_two_transactions_witness :
    store_embeddings "m" [("d1", [ChunkRecord.mk 0 0 4 (7 : Nat)])] =
      [[DbStatement.deleteEmbeddingsForDocuments ["d1"]],
       [DbStatement.copyInsertEmbeddings [InsertedEmbeddingRow.mk "d1" 0 0 4 7 "m"]]] ∧
    InsertedEmbeddingRow.mk "d1" 9 9 9 (5 : Nat) "old" ∉
      applyDbTransaction [InsertedEmbeddingRow.mk "d1" 9 9 9 (5 : Nat) "old"]
        [DbStatement.deleteEmbeddingsForDocuments ["d1"]] := by
  have h := store_embeddings_two_transactions (α := Nat) "m"
    [("d1", [ChunkRecord.mk 0 0 4 7])] (by decide)
  refine ⟨h.1, ?_⟩
  intro hmem
  exact h.2 [InsertedEmbeddingRow.mk "d1" 9 9 9 5 "old"] "d1" (by decide) _ hmem rfl

/-! ### Notion sync completion time (claim C3) -/

/-- C3: evaluation of the code at the failing input.  In a full sync over
one database (no entries, no standalone pages, never cancelled), started
at clock 0, four client round-trips elapse; the state passed to
`ctx.complete` carries `last_sync_at = 4` — the time at which the sync
finished — not the start time 0 required by the claim. -/
theorem notion_full_sync_completes_with_end_time :
    (notion_full_sync
        { databasePages := [[⟨"db1"⟩]]
          pagePages := []
          databaseEntryPages := fun _ => []
          cancelledAt := fun _ => false } 0).events =
      [SyncEvent.incrementScanned, SyncEvent.emit "db1", SyncEvent.complete 4] ∧
    SyncEvent.complete 0 ∉
      (notion_full_sync
        { databasePages := [[⟨"db1"⟩]]
          pagePages := []
          databaseEntryPages := fun _ => []
          cancelledAt := fun _ => false } 0).events := by
  constructor
  · rfl
  · decide

/-! ### Notion cancellation message and finality (claim C6) -/

/-- C6, counterexample.  A sync cancelled from the start finalizes with
`fail("Cancelled by user")` — not with the exact message `"Cancelled"`
the claim requires. -/
theorem notion_cancel_message_counterexample :
    (notion_full_sync
        { databasePages := [[⟨"db1"⟩]]
          pagePages := []
          databaseEntryPages := fun _ => []
          cancelledAt := fun _ => true } 0).events =
      [SyncEvent.fail "Cancelled by user"] ∧
    SyncEvent.fail "Cancelled" ∉
      (notion_full_sync
        { databasePages := [[⟨"db1"⟩]]
          pagePages := []
          databaseEntryPages := fun _ => []
          cancelledAt := fun _ => true } 0).events ∧
    "Cancelled by user" ≠ "Cancelled" := by
  refine ⟨rfl, ?_, ?_⟩
  · decide
  · decide

theorem noFail_append_fail_eq (pre : List SyncEvent) :
    ∀ (A post : List SyncEvent) (msg good : String),
      (∀ m, SyncEvent.fail m ∉ A) →
      A ++ [SyncEvent.fail good] = pre ++ SyncEvent.fail msg :: post →
      msg = good ∧ post = [] := by
  induction pre with
  | nil =>
    intro A post msg good hA heq
    cases A with
    | nil =>
      rw [List.nil_append, List.nil_append] at heq
      injection heq with h1 h2
      injection h1 with h3
      exact ⟨h3.symm, h2.symm⟩
    | cons a A' =>
      rw [List.cons_append, List.nil_append] at heq
      injection heq with h1 h2
      apply absurd (List.mem_cons_self a A')
      intro hm
      exact hA msg (h1 ▸ hm)
  | cons p pre' ih =>
    intro A post msg good hA heq
    cases A with
    | nil =>
      rw [List.nil_append, List.cons_append] at heq
      injection heq with h1 h2
      exact absurd h2.symm (by simp)
    | cons a A' =>
      rw [List.cons_append, List.cons_append] at heq
      injection heq with h1 h2
      exact ih A' post msg good (fun m hm => hA m (List.mem_cons_of_mem _ hm)) h2

theorem noFail_not_split (L pre post : List SyncEvent) (msg : String)
    (hL : ∀ m, SyncEvent.fail m ∉ L)
    (heq : L = pre ++ SyncEvent.fail msg :: post) : False := by
  apply hL msg
  rw [heq]
  exact List.mem_append.mpr (Or.inr (List.mem_cons_self _ _))

theorem notionCheckpoint_events (acc : SyncAcc) :
    ∃ t, (notionCheckpoint acc).events = acc.events ++ t ∧
      ∀ m, SyncEvent.fail m ∉ t := by
  rw [notionCheckpoint]
  split
  · exact ⟨[SyncEvent.saveState], rfl, by simp⟩
  · exact ⟨[], by simp, by simp⟩

theorem notionEntriesFor_events (cancelled : Nat → Bool) (ps : List NotionObject) :
    ∀ acc, ∃ t, (notionEntriesFor cancelled ps acc).1.events = acc.events ++ t ∧
      ∀ m, SyncEvent.fail m ∉ t := by
  induction ps with
  | nil =>
    intro acc
    exact ⟨[], by simp [notionEntriesFor], by simp⟩
  | cons p ps ih =>
    intro acc
    rw [notionEntriesFor]
    split
    · exact ⟨[], by simp, by simp⟩
    · obtain ⟨t0, ht0, ht0f⟩ := notionCheckpoint_events
        (notionSyncPage
          { acc with
            databasePageIds := acc.databasePageIds ++ [p.id]
            events := acc.events ++ [SyncEvent.incrementScanned] } p.id)
      obtain ⟨t1, ht1, ht1f⟩ := ih
        (notionCheckpoint
          (notionSyncPage
            { acc with
              databasePageIds := acc.databasePageIds ++ [p.id]
              events := acc.events ++ [SyncEvent.incrementScanned] } p.id))
      refine ⟨[SyncEvent.incrementScanned, SyncEvent.emit p.id] ++ t0 ++ t1, ?_, ?_⟩
      · rw [ht1, ht0, notionSyncPage]
        simp [List.append_assoc]
      · intro m
        simp [ht0f m, ht1f m]

theorem notionEntriesWhile_events (cancelled : Nat → Bool)
    (responses : List (List NotionObject)) :
    ∀ acc, ∃ t, (notionEntriesWhile cancelled responses acc).events = acc.events ++ t ∧
      ∀ m, SyncEvent.fail m ∉ t := by
  induction responses with
  | nil =>
    intro acc
    rw [notionEntriesWhile]
    split
    · exact ⟨[], by simp, by simp⟩
    · exact ⟨[], by simp, by simp⟩
  | cons r rs ih =>
    intro acc
    rw [notionEntriesWhile]
    split
    · exact ⟨[], by simp, by simp⟩
    · simp only []
      obtain ⟨t0, ht0, ht0f⟩ := notionEntriesFor_events cancelled r
        { acc with clock := acc.clock + 1 }
      by_cases hres :
          (notionEntriesFor cancelled r { acc with clock := acc.clock + 1 }).2 = true
      · rw [if_pos hres]
        exact ⟨t0, ht0, ht0f⟩
      · rw [if_neg hres]
        cases rs with
        | nil => exact ⟨t0, ht0, ht0f⟩
        | cons r2 rs2 =>
          obtain ⟨t1, ht1, ht1f⟩ := ih
            (notionEntriesFor cancelled r { acc with clock := acc.clock + 1 }).1
          have hcomb : (notionEntriesWhile cancelled (r2 :: rs2)
              (notionEntriesFor cancelled r { acc with clock := acc.clock + 1 }).1).events =
              acc.events ++ (t0 ++ t1) := by
            rw [ht1, ht0, List.append_assoc]
          refine ⟨t0 ++ t1, hcomb, ?_⟩
          intro m
          simp [ht0f m, ht1f m]

theorem notionFullSyncDbFor_events (w : NotionWorld) (dbs : List NotionObject) :
    ∀ acc, ∃ t, (notionFullSyncDbFor w dbs acc).1.events = acc.events ++ t ∧
      (((notionFullSyncDbFor w dbs acc).2 = false ∧ ∀ m, SyncEvent.fail m ∉ t) ∨
       ((notionFullSyncDbFor w dbs acc).2 = true ∧
         ∃ t', t = t' ++ [SyncEvent.fail "Cancelled by user"] ∧
           ∀ m, SyncEvent.fail m ∉ t')) := by
  induction dbs with
  | nil =>
    intro acc
    exact ⟨[], by simp [notionFullSyncDbFor], Or.inl ⟨rfl, by simp⟩⟩
  | cons db dbs ih =>
    intro acc
    rw [notionFullSyncDbFor]
    split
    · exact ⟨[SyncEvent.fail "Cancelled by user"], rfl,
        Or.inr ⟨rfl, [], by simp, by simp⟩⟩
    · obtain ⟨te, hte, htef⟩ := notionEntriesWhile_events w.cancelledAt
        (w.databaseEntryPages db.id)
        { acc with
          clock := acc.clock + 1
          docsEmitted := acc.docsEmitted + 1
          events := acc.events ++ [SyncEvent.incrementScanned, SyncEvent.emit db.id] }
      obtain ⟨t1, ht1, hcase⟩ := ih
        (notionEntriesWhile w.cancelledAt (w.databaseEntryPages db.id)
          { acc with
            clock := acc.clock + 1
            docsEmitted := acc.docsEmitted + 1
            events := acc.events ++ [SyncEvent.incrementScanned, SyncEvent.emit db.id] })
      refine ⟨[SyncEvent.incrementScanned, SyncEvent.emit db.id] ++ te ++ t1, ?_, ?_⟩
      · rw [ht1, hte]
        simp [List.append_assoc]
      · rcases hcase with ⟨hflag, hnf⟩ | ⟨hflag, t', ht', hnf⟩
        · refine Or.inl ⟨hflag, ?_⟩
          intro m
          simp [htef m, hnf m]
        · refine Or.inr ⟨hflag, [SyncEvent.incrementScanned, SyncEvent.emit db.id] ++ te ++ t', ?_, ?_⟩
          · rw [ht']
            simp [List.append_assoc]
          · intro m
            simp [htef m, hnf m]

theorem notionFullSyncDbWhile_events (w : NotionWorld)
    (responses : List (List NotionObject)) :
    ∀ acc, ∃ t, (notionFullSyncDbWhile w responses acc).1.events = acc.events ++ t ∧
      (((notionFullSyncDbWhile w responses acc).2 = false ∧ ∀ m, SyncEvent.fail m ∉ t) ∨
       ((notionFullSyncDbWhile w responses acc).2 = true ∧
         ∃ t', t = t' ++ [SyncEvent.fail "Cancelled by user"] ∧
           ∀ m, SyncEvent.fail m ∉ t')) := by
  induction responses with
  | nil =>
    intro acc
    rw [notionFullSyncDbWhile]
    split
    · exact ⟨[SyncEvent.fail "Cancelled by user"], rfl,
        Or.inr ⟨rfl, [], by simp, by simp⟩⟩
    · exact ⟨[], by simp, Or.inl ⟨rfl, by simp⟩⟩
  | cons r rs ih =>
    intro acc
    rw [notionFullSyncDbWhile]
    split
    · exact ⟨[SyncEvent.fail "Cancelled by user"], rfl,
        Or.inr ⟨rfl, [], by simp, by simp⟩⟩
    · simp only []
      obtain ⟨t0, ht0, hcase0⟩ := notionFullSyncDbFor_events w r
        { acc with clock := acc.clock + 1 }
      by_cases hres :
          (notionFullSyncDbFor w r { acc with clock := acc.clock + 1 }).2 = true
      · rw [if_pos hres]
        rcases hcase0 with ⟨hflag, _⟩ | ⟨_, t', ht', hnf⟩
        · rw [hflag] at hres
          exact absurd hres (by simp)
        · exact ⟨t0, ht0, Or.inr ⟨rfl, t', ht', hnf⟩⟩
      · rw [if_neg hres]
        rcases hcase0 with ⟨hflag, hnf0⟩ | ⟨hflag, _⟩
        · cases rs with
          | nil => exact ⟨t0, ht0, Or.inl ⟨rfl, hnf0⟩⟩
          | cons r2 rs2 =>
            obtain ⟨t1, ht1, hcase1⟩ := ih
              (notionFullSyncDbFor w r { acc with clock := acc.clock + 1 }).1
            have hcomb : (notionFullSyncDbWhile w (r2 :: rs2)
                (notionFullSyncDbFor w r { acc with clock := acc.clock + 1 }).1).1.events =
                acc.events ++ (t0 ++ t1) := by
              rw [ht1, ht0, List.append_assoc]
            rcases hcase1 with ⟨hflag1, hnf1⟩ | ⟨hflag1, t', ht', hnf1⟩
            · refine ⟨t0 ++ t1, hcomb, Or.inl ⟨hflag1, ?_⟩⟩
              intro m
              simp [hnf0 m, hnf1 m]
            · refine ⟨t0 ++ t1, hcomb, Or.inr ⟨hflag1, t0 ++ t', ?_, ?_⟩⟩
              · rw [ht']
                simp [List.append_assoc]
              · intro m
                simp [hnf0 m, hnf1 m]
        · exact absurd hflag hres

theorem notionFullSyncPageFor_events (w : NotionWorld) (ps : List NotionObject) :
    ∀ acc, ∃ t, (notionFullSyncPageFor w ps acc).1.events = acc.events ++ t ∧
      (((notionFullSyncPageFor w ps acc).2 = false ∧ ∀ m, SyncEvent.fail m ∉ t) ∨
       ((notionFullSyncPageFor w ps acc).2 = true ∧
         ∃ t', t = t' ++ [SyncEvent.fail "Cancelled by user"] ∧
           ∀ m, SyncEvent.fail m ∉ t')) := by
  induction ps with
  | nil =>
    intro acc
    exact ⟨[], by simp [notionFullSyncPageFor], Or.inl ⟨rfl, by simp⟩⟩
  | cons p ps ih =>
    intro acc
    rw [notionFullSyncPageFor]
    split
    · exact ⟨[SyncEvent.fail "Cancelled by user"], rfl,
        Or.inr ⟨rfl, [], by simp, by simp⟩⟩
    · split
      · exact ih acc
      · obtain ⟨t0, ht0, ht0f⟩ := notionCheckpoint_events
          { acc with
            clock := acc.clock + 1
            docsEmitted := acc.docsEmitted + 1
            events := acc.events ++ [SyncEvent.incrementScanned, SyncEvent.emit p.id] }
        obtain ⟨t1, ht1, hcase⟩ := ih
          (notionCheckpoint
            { acc with
              clock := acc.clock + 1
              docsEmitted := acc.docsEmitted + 1
              events := acc.events ++ [SyncEvent.incrementScanned, SyncEvent.emit p.id] })
        refine ⟨[SyncEvent.incrementScanned, SyncEvent.emit p.id] ++ t0 ++ t1, ?_, ?_⟩
        · rw [ht1, ht0]
          simp [List.append_assoc]
        · rcases hcase with ⟨hflag, hnf⟩ | ⟨hflag, t', ht', hnf⟩
          · refine Or.inl ⟨hflag, ?_⟩
            intro m
            simp [ht0f m, hnf m]
          · refine Or.inr ⟨hflag,
              [SyncEvent.incrementScanned, SyncEvent.emit p.id] ++ t0 ++ t', ?_, ?_⟩
            · rw [ht']
              simp [List.append_assoc]
            · intro m
              simp [ht0f m, hnf m]

theorem notionFullSyncPageWhile_events (w : NotionWorld)
    (responses : List (List NotionObject)) :
    ∀ acc, ∃ t, (notionFullSyncPageWhile w responses acc).1.events = acc.events ++ t ∧
      (((notionFullSyncPageWhile w responses acc).2 = false ∧ ∀ m, SyncEvent.fail m ∉ t) ∨
       ((notionFullSyncPageWhile w responses acc).2 = true ∧
         ∃ t', t = t' ++ [SyncEvent.fail "Cancelled by user"] ∧
           ∀ m, SyncEvent.fail m ∉ t')) := by
  induction responses with
  | nil =>
    intro acc
    rw [notionFullSyncPageWhile]
    split
    · exact ⟨[SyncEvent.fail "Cancelled by user"], rfl,
        Or.inr ⟨rfl, [], by simp, by simp⟩⟩
    · exact ⟨[], by simp, Or.inl ⟨rfl, by simp⟩⟩
  | cons r rs ih =>
    intro acc
    rw [notionFullSyncPageWhile]
    split
    · exact ⟨[SyncEvent.fail "Cancelled by user"], rfl,
        Or.inr ⟨rfl, [], by simp, by simp⟩⟩
    · simp only []
      obtain ⟨t0, ht0, hcase0⟩ := notionFullSyncPageFor_events w r
        { acc with clock := acc.clock + 1 }
      by_cases hres :
          (notionFullSyncPageFor w r { acc with clock := acc.clock + 1 }).2 = true
      · rw [if_pos hres]
        rcases hcase0 with ⟨hflag, _⟩ | ⟨_, t', ht', hnf⟩
        · rw [hflag] at hres
          exact absurd hres (by simp)
        · exact ⟨t0, ht0, Or.inr ⟨rfl, t', ht', hnf⟩⟩
      · rw [if_neg hres]
        rcases hcase0 with ⟨hflag, hnf0⟩ | ⟨hflag, _⟩
        · cases rs with
          | nil => exact ⟨t0, ht0, Or.inl ⟨rfl, hnf0⟩⟩
          | cons r2 rs2 =>
            obtain ⟨t1, ht1, hcase1⟩ := ih
              (notionFullSyncPageFor w r { acc with clock := acc.clock + 1 }).1
            have hcomb : (notionFullSyncPageWhile w (r2 :: rs2)
                (notionFullSyncPageFor w r { acc with clock := acc.clock + 1 }).1).1.events =
                acc.events ++ (t0 ++ t1) := by
              rw [ht1, ht0, List.append_assoc]
            rcases hcase1 with ⟨hflag1, hnf1⟩ | ⟨hflag1, t', ht', hnf1⟩
            · refine ⟨t0 ++ t1, hcomb, Or.inl ⟨hflag1, ?_⟩⟩
              intro m
              simp [hnf0 m, hnf1 m]
            · refine ⟨t0 ++ t1, hcomb, Or.inr ⟨hflag1, t0 ++ t', ?_, ?_⟩⟩
              · rw [ht']
                simp [List.append_assoc]
              · intro m
                simp [hnf0 m, hnf1 m]
        · exact absurd hflag hres

theorem notion_full_sync_events_shape (w : NotionWorld) (startClock : Nat) :
    (∀ m, SyncEvent.fail m ∉ (notion_full_sync w startClock).events) ∨
    (∃ t', (notion_full_sync w startClock).events =
        t' ++ [SyncEvent.fail "Cancelled by user"] ∧
      ∀ m, SyncEvent.fail m ∉ t') := by
  rw [notion_full_sync]
  simp only []
  obtain ⟨t1, ht1, hcase1⟩ := notionFullSyncDbWhile_events w w.databasePages
    { clock := startClock, docsEmitted := 0, databasePageIds := [], events := [] }
  by_cases hflag1 :
      (notionFullSyncDbWhile w w.databasePages
        { clock := startClock, docsEmitted := 0, databasePageIds := [], events := [] }).2 = true
  · rw [if_pos hflag1]
    rcases hcase1 with ⟨hf, _⟩ | ⟨_, t', ht', hnf⟩
    · rw [hf] at hflag1
      exact absurd hflag1 (by simp)
    · refine Or.inr ⟨t', ?_, hnf⟩
      rw [ht1, ht', List.nil_append]
  · rw [if_neg hflag1]
    rcases hcase1 with ⟨_, hnf1⟩ | ⟨hf, _⟩
    · obtain ⟨t2, ht2, hcase2⟩ := notionFullSyncPageWhile_events w w.pagePages
        (notionFullSyncDbWhile w w.databasePages
          { clock := startClock, docsEmitted := 0, databasePageIds := [], events := [] }).1
      by_cases hflag2 :
          (notionFullSyncPageWhile w w.pagePages
            (notionFullSyncDbWhile w w.databasePages
              { clock := startClock, docsEmitted := 0, databasePageIds := [],
                events := [] }).1).2 = true
      · rw [if_pos hflag2]
        rcases hcase2 with ⟨hf, _⟩ | ⟨_, t', ht', hnf2⟩
        · rw [hf] at hflag2
          exact absurd hflag2 (by simp)
        · refine Or.inr ⟨t1 ++ t', ?_, ?_⟩
          · rw [ht2, ht1, ht', List.nil_append, List.append_assoc]
          · intro m
            simp [hnf1 m, hnf2 m]
      · rw [if_neg hflag2]
        rcases hcase2 with ⟨_, hnf2⟩ | ⟨hf, _⟩
        · refine Or.inl ?_
          intro m
          simp only [List.mem_append]
          rw [ht2, ht1, List.nil_append]
          simp [hnf1 m, hnf2 m]
        · exact absurd hf hflag2
    · exact absurd hf hflag1

/-- C6, amended.  In the full-sync model, every `fail` event carries
exactly the message `"Cancelled by user"` (the only `fail` sites of
`_full_sync` are its cancellation checks) and is the final event of the
sync — in particular no document is emitted after the cancellation
observation that produced it; and a sync that observes cancellation at
its first poll finalizes immediately with `fail("Cancelled by user")`
alone, emitting nothing. -/
theorem notion_cancellation_fails_with_message (w : NotionWorld) (startClock : Nat) :
    (∀ pre msg post,
      (notion_full_sync w startClock).events = pre ++ SyncEvent.fail msg :: post →
      msg = "Cancelled by user" ∧ post = []) ∧
    (w.cancelledAt startClock = true →
      (notion_full_sync w startClock).events = [SyncEvent.fail "Cancelled by user"]) := by
  constructor
  · intro pre msg post heq
    rcases notion_full_sync_events_shape w startClock with hnf | ⟨t', ht', hnf⟩
    · exact absurd heq (fun h => noFail_not_split _ pre post msg hnf h)
    · exact noFail_append_fail_eq pre t' post msg "Cancelled by user" hnf
        (ht' ▸ heq)
  · intro hc
    rw [notion_full_sync]
    cases hdb : w.databasePages with
    | nil =>
      rw [notionFullSyncDbWhile]
      simp [hc]
    | cons r rs =>
      rw [notionFullSyncDbWhile]
      simp [hc]

/-- C6, witness: a world cancelled from the start, at start clock 5;
the fail message and the absence of any later event are instances of the
theorem with its hypotheses discharged. -/
theorem notion_cancellation_fails_with_message_witness :
    (notion_full_sync
        { databasePages := [[⟨"db1"⟩]]
          pagePages := [[⟨"p1"⟩]]
          databaseEntryPages := fun _ => []
          cancelledAt := fun _ => true } 5).events =
      [SyncEvent.fail "Cancelled by user"] ∧
    "Cancelled by user" = "Cancelled by user" := by
  have h := notion_cancellation_fails_with_message
    { databasePages := [[⟨"db1"⟩]]
      pagePages := [[⟨"p1"⟩]]
      databaseEntryPages := fun _ => []
      cancelledAt := fun _ => true } 5
  have h2 := h.2 rfl
  exact ⟨h2, (h.1 [] "Cancelled by user" [] (by rw [h2]; rfl)).1 ▸ rfl⟩

/-! ### Sentence-mode chunking lemmas (claims C4 and C8) -/

theorem takeWhile_dropWhile_length (p : Char → Bool) (l : List Char) :
    (l.takeWhile p).length + (l.dropWhile p).length = l.length := by
  conv_rhs => rw [← List.takeWhile_append_dropWhile (p := p) (l := l)]
  rw [List.length_append]

theorem findMatches_bounds (cs : List Char) (pos : Nat) :
    ∀ q ∈ findMatches cs pos, pos ≤ q.1 ∧ q.1 < q.2 ∧ q.2 ≤ pos + cs.length := by
  induction cs, pos using findMatches.induct with
  | case1 pos =>
    intro q hq
    rw [findMatches] at hq
    simp at hq
  | case2 pos c cs hpunct la lrest lb hb ih =>
    intro q hq
    rw [findMatches, if_pos hpunct] at hq
    rw [if_pos hb] at hq
    change q ∈ findMatches lrest (pos + la.length) at hq
    have hbd := ih q hq
    have hlen : la.length + lrest.length = (c :: cs).length :=
      takeWhile_dropWhile_length isPunct (c :: cs)
    simp only [List.length_cons] at hlen ⊢
    omega
  | case3 pos c cs hpunct la lrest lb hb ih =>
    intro q hq
    rw [findMatches, if_pos hpunct] at hq
    rw [if_neg hb] at hq
    change q ∈ (pos, pos + la.length + lb.length) ::
      findMatches (List.dropWhile isPySpace lrest) (pos + la.length + lb.length) at hq
    have hA : 0 < la.length := by
      rw [show la = List.takeWhile isPunct (c :: cs) from rfl,
        List.takeWhile_cons_of_pos hpunct]
      simp
    have hlen : la.length + lrest.length = (c :: cs).length :=
      takeWhile_dropWhile_length isPunct (c :: cs)
    have hlen2 : lb.length + (List.dropWhile isPySpace lrest).length = lrest.length :=
      takeWhile_dropWhile_length isPySpace lrest
    rcases List.mem_cons.mp hq with rfl | hq
    · simp only [List.length_cons] at hlen ⊢
      omega
    · have hbd := ih q hq
      simp only [List.length_cons] at hlen ⊢
      omega
  | case4 pos c cs hpunct ih =>
    intro q hq
    rw [findMatches, if_neg hpunct] at hq
    have := ih q hq
    simp only [List.length_cons]
    omega

theorem findMatches_pairwise (cs : List Char) (pos : Nat) :
    List.Pairwise (fun a b : Nat × Nat => a.2 ≤ b.2) (findMatches cs pos) := by
  induction cs, pos using findMatches.induct with
  | case1 pos =>
    rw [findMatches]
    simp
  | case2 pos c cs hpunct la lrest lb hb ih =>
    rw [findMatches, if_pos hpunct]
    rw [if_pos hb]
    exact ih
  | case3 pos c cs hpunct la lrest lb hb ih =>
    rw [findMatches, if_pos hpunct]
    rw [if_neg hb]
    refine List.pairwise_cons.mpr ⟨?_, ih⟩
    intro q hq
    have hbd := findMatches_bounds _ _ q hq
    simp only []
    omega
  | case4 pos c cs hpunct ih =>
    rw [findMatches, if_neg hpunct]
    exact ih

theorem findMatches_no_punct (cs : List Char) (pos : Nat)
    (h : ∀ c ∈ cs, isPunct c = false) : findMatches cs pos = [] := by
  induction cs, pos using findMatches.induct with
  | case1 pos => rw [findMatches]
  | case2 pos c cs hpunct la lrest lb hb ih =>
    have := h c (List.mem_cons_self _ _)
    rw [this] at hpunct
    exact absurd hpunct (by simp)
  | case3 pos c cs hpunct la lrest lb hb ih =>
    have := h c (List.mem_cons_self _ _)
    rw [this] at hpunct
    exact absurd hpunct (by simp)
  | case4 pos c cs hpunct ih =>
    rw [findMatches, if_neg hpunct]
    exact ih fun x hx => h x (List.mem_cons_of_mem _ hx)

theorem buildSentences_spec (ms : List (Nat × Nat)) :
    ∀ lastEnd, List.Pairwise (fun a b : Nat × Nat => a.2 ≤ b.2) ms →
      (∀ q ∈ (buildSentences ms lastEnd).1, q.2 ∈ ms.map Prod.snd) ∧
      ((buildSentences ms lastEnd).2 = lastEnd ∨
        (buildSentences ms lastEnd).2 ∈ ms.map Prod.snd) ∧
      List.Pairwise (fun a b : Nat × Nat => a.2 ≤ b.2) (buildSentences ms lastEnd).1 := by
  induction ms with
  | nil =>
    intro lastEnd hms
    refine ⟨?_, Or.inl rfl, ?_⟩ <;> simp [buildSentences]
  | cons m ms ih =>
    intro lastEnd hms
    obtain ⟨s, e⟩ := m
    obtain ⟨hhead, htail⟩ := List.pairwise_cons.mp hms
    obtain ⟨ha, hb, hc⟩ := ih e htail
    rw [buildSentences]
    split
    · refine ⟨?_, ?_, ?_⟩
      · intro q hq
        rcases List.mem_cons.mp hq with rfl | hq
        · simp
        · exact List.mem_cons_of_mem _ (ha q hq)
      · rcases hb with hb | hb
        · exact Or.inr (by simp [hb])
        · exact Or.inr (List.mem_cons_of_mem _ hb)
      · refine List.pairwise_cons.mpr ⟨?_, hc⟩
        intro q hq
        have hqe := ha q hq
        rw [List.mem_map] at hqe
        obtain ⟨b, hbm, hbe⟩ := hqe
        have := hhead b hbm
        simp only []
        omega
    · refine ⟨?_, ?_, hc⟩
      · intro q hq
        exact List.mem_cons_of_mem _ (ha q hq)
      · rcases hb with hb | hb
        · exact Or.inr (by simp [hb])
        · exact Or.inr (List.mem_cons_of_mem _ hb)

theorem sentencesOf_spec (text : List Char) :
    (∀ q ∈ sentencesOf text, q.2 ≤ text.length) ∧
    List.Pairwise (fun a b : Nat × Nat => a.2 ≤ b.2) (sentencesOf text) := by
  obtain ⟨ha, hb, hc⟩ := buildSentences_spec (findMatches text 0) 0
    (findMatches_pairwise text 0)
  have hend : ∀ q ∈ (buildSentences (findMatches text 0) 0).1, q.2 ≤ text.length := by
    intro q hq
    have := ha q hq
    rw [List.mem_map] at this
    obtain ⟨m, hm, hme⟩ := this
    have := findMatches_bounds text 0 m hm
    omega
  rw [sentencesOf]
  split
  · constructor
    · intro q hq
      rcases List.mem_append.mp hq with hq | hq
      · exact hend q hq
      · rw [List.mem_singleton] at hq
        subst hq
        rfl
    · rw [List.pairwise_append]
      refine ⟨hc, by simp, ?_⟩
      intro x hx y hy
      rw [List.mem_singleton] at hy
      subst hy
      simp only []
      exact hend x hx
  · exact ⟨hend, hc⟩

theorem chunkLoop_spec (E : List Nat) (N : Nat) (maxChars : Int)
    (sents : List (Nat × Nat)) :
    ∀ (cst lse : Nat),
      cst ≤ lse → lse ≤ N →
      (∀ q ∈ sents, q.2 ≤ N) →
      (∀ q ∈ sents, lse ≤ q.2) →
      List.Pairwise (fun a b : Nat × Nat => a.2 ≤ b.2) sents →
      (∀ q ∈ sents, q.2 ∈ E) →
      (cst = 0 ∨ cst ∈ E) →
      (lse = 0 ∨ lse ∈ E) →
      (∀ q ∈ (chunkLoop sents maxChars cst lse).1,
          (q.1 < q.2 ∧ q.2 ≤ N) ∧
          (cst ≤ q.1 ∧ q.2 ≤ (chunkLoop sents maxChars cst lse).2.1) ∧
          ((q.1 = 0 ∨ q.1 ∈ E) ∧ q.2 ∈ E)) ∧
      List.Chain' (fun a b : Nat × Nat => a.2 ≤ b.1)
        (chunkLoop sents maxChars cst lse).1 ∧
      cst ≤ (chunkLoop sents maxChars cst lse).2.1 ∧
      ((chunkLoop sents maxChars cst lse).2.1 = 0 ∨
        (chunkLoop sents maxChars cst lse).2.1 ∈ E) := by
  induction sents with
  | nil =>
    intro cst lse h1 h2 h3 h4 h5 hE hcst hlse
    refine ⟨?_, ?_, le_refl cst, hcst⟩ <;> simp [chunkLoop]
  | cons m rest ih =>
    intro cst lse h1 h2 h3 h4 h5 hE hcst hlse
    obtain ⟨s, e⟩ := m
    have hle : lse ≤ e := h4 (s, e) (List.mem_cons_self _ _)
    have heN : e ≤ N := h3 (s, e) (List.mem_cons_self _ _)
    have heE : e ∈ E := hE (s, e) (List.mem_cons_self _ _)
    obtain ⟨hhead, htail⟩ := List.pairwise_cons.mp h5
    have h4r : ∀ q ∈ rest, e ≤ q.2 := fun q hq => by
      have := hhead q hq
      simpa using this
    have h3r : ∀ q ∈ rest, q.2 ≤ N := fun q hq => h3 q (List.mem_cons_of_mem _ hq)
    have hEr : ∀ q ∈ rest, q.2 ∈ E := fun q hq => hE q (List.mem_cons_of_mem _ hq)
    rw [chunkLoop]
    simp only []
    split
    · rename_i hcond
      have hcstlse : cst < lse := hcond.2
      have hlseE : lse ∈ E := by
        rcases hlse with hlse | hlse
        · omega
        · exact hlse
      obtain ⟨ihA, ihC, ihF, ihE⟩ := ih lse e hle heN h3r h4r htail hEr
        (Or.inr hlseE) (Or.inr heE)
      refine ⟨?_, ?_, ?_, ihE⟩
      · intro q hq
        rcases List.mem_cons.mp hq with rfl | hq
        · exact ⟨⟨hcstlse, h2⟩, ⟨le_refl cst, ihF⟩, ⟨hcst, hlseE⟩⟩
        · obtain ⟨⟨hv, hvN⟩, ⟨hg, hgr⟩, hep⟩ := ihA q hq
          exact ⟨⟨hv, hvN⟩, ⟨le_trans (le_of_lt hcstlse) hg, hgr⟩, hep⟩
      · refine List.chain'_cons'.mpr ⟨?_, ihC⟩
        intro y hy
        have hym := List.mem_of_mem_head? hy
        obtain ⟨_, ⟨hg, _⟩, _⟩ := ihA y hym
        simpa using hg
      · exact le_trans (le_of_lt hcstlse) ihF
    · have h1e : cst ≤ e := le_trans h1 hle
      exact ih cst e h1e heN h3r h4r htail hEr hcst (Or.inr heE)

theorem chunk_by_sentences_chars_spec (text : List Char) (maxChars : Int) :
    (∀ q ∈ chunk_by_sentences_chars text maxChars,
      q.2 ≤ text.length ∧
      (q.1 = 0 ∨ q.1 ∈ (sentencesOf text).map Prod.snd) ∧
      (q.2 = text.length ∨ q.2 ∈ (sentencesOf text).map Prod.snd)) ∧
    List.Chain' (fun a b : Nat × Nat => a.2 ≤ b.1)
      (chunk_by_sentences_chars text maxChars) ∧
    (text ≠ [] → ∀ q ∈ chunk_by_sentences_chars text maxChars, q.1 < q.2) := by
  obtain ⟨hS1, hS2⟩ := sentencesOf_spec text
  rw [chunk_by_sentences_chars]
  simp only []
  split
  · refine ⟨?_, ?_, ?_⟩
    · intro q hq
      rw [List.mem_singleton] at hq
      subst hq
      exact ⟨le_refl _, Or.inl rfl, Or.inl rfl⟩
    · simp
    · intro ht q hq
      rw [List.mem_singleton] at hq
      subst hq
      simpa using List.length_pos.mpr ht
  · obtain ⟨hA, hC, hF, hEnd⟩ := chunkLoop_spec ((sentencesOf text).map Prod.snd)
      text.length maxChars (sentencesOf text) 0 0 (le_refl 0) (Nat.zero_le _)
      hS1 (fun q _ => Nat.zero_le _) hS2
      (fun q hq => List.mem_map_of_mem Prod.snd hq) (Or.inl rfl) (Or.inl rfl)
    split
    · rename_i htail
      split
      · rename_i hemp
        exact absurd hemp (by simp)
      · refine ⟨?_, ?_, ?_⟩
        · intro q hq
          rcases List.mem_append.mp hq with hq | hq
          · obtain ⟨⟨_, hN⟩, _, hb1, hb2⟩ := hA q hq
            exact ⟨hN, hb1, Or.inr hb2⟩
          · rw [List.mem_singleton] at hq
            subst hq
            exact ⟨le_refl _, hEnd, Or.inl rfl⟩
        · refine List.Chain'.append hC (by simp) ?_
          intro x hx y hy
          have hxm := List.mem_of_mem_getLast? hx
          obtain ⟨_, ⟨_, hxe⟩, _⟩ := hA x hxm
          rw [List.head?_cons, Option.mem_some_iff] at hy
          subst hy
          exact hxe
        · intro ht q hq
          rcases List.mem_append.mp hq with hq | hq
          · exact (hA q hq).1.1
          · rw [List.mem_singleton] at hq
            subst hq
            exact htail
    · split
      · refine ⟨?_, ?_, ?_⟩
        · intro q hq
          rw [List.mem_singleton] at hq
          subst hq
          exact ⟨le_refl _, Or.inl rfl, Or.inl rfl⟩
        · simp
        · intro ht q hq
          rw [List.mem_singleton] at hq
          subst hq
          simpa using List.length_pos.mpr ht
      · refine ⟨?_, hC, ?_⟩
        · intro q hq
          obtain ⟨⟨_, hN⟩, _, hb1, hb2⟩ := hA q hq
          exact ⟨hN, hb1, Or.inr hb2⟩
        · intro ht q hq
          exact (hA q hq).1.1

theorem chunk_by_sentences_chars_no_match (text : List Char) (maxChars : Int)
    (hfm : findMatches text 0 = []) :
    chunk_by_sentences_chars text maxChars = [(0, text.length)] := by
  have hs : sentencesOf text =
      if 0 < text.length then [(0, text.length)] else [] := by
    rw [sentencesOf, hfm]
    simp [buildSentences]
  rw [chunk_by_sentences_chars, hs]
  by_cases hlen : 0 < text.length
  · rw [if_pos hlen]
    have hcl : chunkLoop [(0, text.length)] maxChars 0 0 =
        ([], 0, text.length) := by
      rw [chunkLoop, if_neg (by simp), chunkLoop]
    simp [hcl, hlen]
  · rw [if_neg hlen]
    simp

/-- C4, counterexample.  On the empty text, sentence-mode chunking
returns the span `(0, 0)`, which violates `start < end`: the claim fails
for the input `text = ""` (any `max_chars`). -/
theorem chunker_empty_text_span_counterexample :
    chunk_by_sentences_chars [] 5 = [(0, 0)] ∧
    ¬ (∀ q ∈ chunk_by_sentences_chars [] 5, q.1 < q.2) := by
  have hfm : findMatches [] 0 = [] := by rw [findMatches]
  have h : chunk_by_sentences_chars [] 5 = [(0, 0)] :=
    chunk_by_sentences_chars_no_match [] 5 hfm
  refine ⟨h, ?_⟩
  rw [h]
  intro hall
  exact absurd (hall (0, 0) (List.mem_singleton.mpr rfl)) (by simp)

/-- C4, amended.  For every text and `max_chars`, the spans produced by
`chunk_by_chars` satisfy `0 ≤ start < end ≤ len(text)` and are sorted and
non-overlapping (`end_i ≤ start_{i+1}`); the spans of
`chunk_by_sentences_chars` satisfy `end ≤ len(text)` and are sorted and
non-overlapping, and satisfy `start < end` for every nonempty text — on
the empty text sentence mode returns the degenerate span `(0, 0)`. -/
theorem chunker_span_invariants (text : List Char) (m : Int) :
    ((∀ q ∈ chunk_by_chars text m, q.1 < q.2 ∧ q.2 ≤ text.length) ∧
      List.Chain' (fun a b : Nat × Nat => a.2 ≤ b.1) (chunk_by_chars text m)) ∧
    ((∀ q ∈ chunk_by_sentences_chars text m, q.2 ≤ text.length) ∧
      List.Chain' (fun a b : Nat × Nat => a.2 ≤ b.1) (chunk_by_sentences_chars text m) ∧
      (text ≠ [] → ∀ q ∈ chunk_by_sentences_chars text m, q.1 < q.2)) := by
  constructor
  · by_cases hcond : text.length = 0 ∨ m < 1
    · rw [chunk_by_chars, dif_pos hcond]
      simp
    · push_neg at hcond
      obtain ⟨hlen, hm⟩ := hcond
      have ht : text ≠ [] := fun hnil => hlen (by rw [hnil]; rfl)
      have hm1 : 1 ≤ m := by omega
      have hstep : 0 < m.toNat := by omega
      rw [chunk_by_chars_nonempty text m ht hm1]
      constructor
      · intro q hq
        have := buildCharChunks_valid text.length m.toNat hstep 0 q hq
        omega
      · exact buildCharChunks_chain text.length m.toNat hstep 0
  · obtain ⟨hA, hC, hV⟩ := chunk_by_sentences_chars_spec text m
    exact ⟨fun q hq => (hA q hq).1, hC, hV⟩

/-- C4, witness: concrete spans of both modes on the text `"ab"`. -/
theorem chunker_span_invariants_witness :
    ((0 : Nat) < 1 ∧ (1 : Nat) ≤ (['a', 'b'] : List Char).length) ∧
    (0 : Nat) < 2 ∧ (2 : Nat) ≤ (['a', 'b'] : List Char).length := by
  have hmem : ((0 : Nat), (2 : Nat)) ∈ chunk_by_sentences_chars ['a', 'b'] 5 := by
    rw [chunk_by_sentences_chars_no_match ['a', 'b'] 5
      (findMatches_no_punct ['a', 'b'] 0 (by decide))]
    exact List.mem_singleton.mpr rfl
  have hmem2 : ((0 : Nat), (1 : Nat)) ∈ chunk_by_chars ['a', 'b'] 1 := by
    rw [chunk_by_chars_nonempty ['a', 'b'] 1 (by decide) (by norm_num),
      buildCharChunks_eq_cons _ _ _ 0 (by norm_num)]
    norm_num
  refine ⟨(chunker_span_invariants ['a', 'b'] 1).1.1 (0, 1) hmem2, ?_, ?_⟩
  · exact (chunker_span_invariants ['a', 'b'] 5).2.2.2 (by decide) (0, 2) hmem
  · exact (chunker_span_invariants ['a', 'b'] 5).2.1 (0, 2) hmem

/-- C8: in sentence mode, when the boundary regex `[.!?]+\s+` matches
nowhere in the text the result is the single span `(0, len(text))`; and
every produced span begins at 0 or at the end of a sentence and ends at
the end of a sentence or at `len(text)` — chunks are never cut
mid-sentence, so a single sentence longer than `max_chars` is emitted
whole inside one span. -/
theorem sentence_mode_no_boundary_single_span (text : List Char) (maxChars : Int) :
    (findMatches text 0 = [] →
      chunk_by_sentences_chars text maxChars = [(0, text.length)]) ∧
    (∀ q ∈ chunk_by_sentences_chars text maxChars,
      (q.1 = 0 ∨ q.1 ∈ (sentencesOf text).map Prod.snd) ∧
      (q.2 = text.length ∨ q.2 ∈ (sentencesOf text).map Prod.snd)) := by
  constructor
  · exact chunk_by_sentences_chars_no_match text maxChars
  · intro q hq
    exact ((chunk_by_sentences_chars_spec text maxChars).1 q hq).2

/-- C8, witness: the boundary-free text `"abc"` yields the single span
`(0, 3)`, whose endpoints satisfy the boundary condition. -/
theorem sentence_mode_no_boundary_single_span_witness :
    chunk_by_sentences_chars ['a', 'b', 'c'] 2 = [(0, 3)] ∧
    ((0 : Nat) = 0 ∨ (0 : Nat) ∈ (sentencesOf ['a', 'b', 'c']).map Prod.snd) := by
  have h := sentence_mode_no_boundary_single_span ['a', 'b', 'c'] 2
  have ha := h.1 (findMatches_no_punct ['a', 'b', 'c'] 0 (by decide))
  refine ⟨ha, ?_⟩
  exact (h.2 (0, 3) (by rw [ha]; exact List.mem_singleton.mpr rfl)).1

end Omni
